import Mathlib

/-!
Verification of the book-file discovery/validation pipeline and the
directory scanner of the readest native host layer
(`src-tauri/src/lib.rs`, `src-tauri/src/dir_scanner.rs`).

Filesystem paths are modelled as their lists of normal components; the
filesystem itself is passed in explicitly (an existence predicate and a
metadata function for the validator, a tree of nodes for the scanner),
and the UI event channel of `validate_book_files` is modelled as a
function giving, for each loop index, whether the emission at that index
is delivered or fails with an error message.
-/

namespace Readest

/-- A filesystem path, as its list of normal components (no `.`, `..`,
separators or empty components). -/
abbrev FPath := List String

/-- Rust `Path::new(path).file_name().unwrap_or_default()` on a path of
normal components: its last component, or `""` for an empty path. -/
def fileName (p : FPath) : String := p.getLast?.getD ""

/-- `ImportProgress` of lib.rs (the `import-progress` event payload). -/
structure ImportProgress where
  total_files : Nat
  processed_files : Nat
  current_file : String
deriving Repr, DecidableEq

/-- `ImportValidation` of lib.rs. -/
structure ImportValidation where
  path : FPath
  success : Bool
  error : Option String
deriving Repr, DecidableEq

/-- Embedding of `validate_book_file` (lib.rs): an existence check, then a
metadata read confirming non-zero length. `fexists` models `Path::exists`,
`fmeta` models `fs::metadata` returning the file length or an error
message. -/
def validate_book_file (fexists : FPath → Bool) (fmeta : FPath → Except String Nat)
    (path : FPath) : Except String Unit :=
  if !fexists path then
    .error "File does not exist"
  else
    match fmeta path with
    | .ok len => if len == 0 then .error "File is empty" else .ok ()
    | .error e => .error ("Failed to read file metadata: " ++ e)

/-- The `ImportValidation` that `validate_book_files` records for one path
(the `match validate_book_file(path)` arm of its loop). -/
def mkValidation (fexists : FPath → Bool) (fmeta : FPath → Except String Nat)
    (path : FPath) : ImportValidation :=
  match validate_book_file fexists fmeta path with
  | .ok _ => ⟨path, true, none⟩
  | .error e => ⟨path, false, some e⟩

/-- The emission test of the loop of `validate_book_files`:
`i % chunk_size == 0 || i == total_files - 1`. -/
def emitCond (i total chunk_size : Nat) : Bool :=
  i % chunk_size == 0 || i == total - 1

/-- The `ImportProgress` payload built at loop index `i`. -/
def progressFor (total i : Nat) (path : FPath) : ImportProgress :=
  ⟨total, i + 1, fileName path⟩

/-- The loop of `validate_book_files`, started at index `i`. `emitErr j`
models the outcome of `window.emit` at loop index `j` (`none` = delivered,
`some e` = the emission failed, its error rendering to `e`). Returns the
progress payloads actually delivered and the command's result; a failed
emission aborts with that error (the `?` operator), discarding the
partial `results` vector. -/
def validateLoop (emitErr : Nat → Option String) (fexists : FPath → Bool)
    (fmeta : FPath → Except String Nat) (total chunk_size : Nat) :
    Nat → List FPath → List ImportProgress × Except String (List ImportValidation)
  | _, [] => ([], .ok [])
  | i, path :: rest =>
    if emitCond i total chunk_size then
      match emitErr i with
      | some e => ([], .error e)
      | none =>
        let r := validateLoop emitErr fexists fmeta total chunk_size (i + 1) rest
        (progressFor total i path :: r.1,
         r.2.map (fun l => mkValidation fexists fmeta path :: l))
    else
      let r := validateLoop emitErr fexists fmeta total chunk_size (i + 1) rest
      (r.1, r.2.map (fun l => mkValidation fexists fmeta path :: l))

/-- Embedding of `validate_book_files` (lib.rs): iterate the paths from
index 0 with `total_files = paths.len()`. -/
def validate_book_files (emitErr : Nat → Option String) (fexists : FPath → Bool)
    (fmeta : FPath → Except String Nat) (paths : List FPath) (chunk_size : Nat) :
    List ImportProgress × Except String (List ImportValidation) :=
  validateLoop emitErr fexists fmeta paths.length chunk_size 0 paths

/-- Rust `char` lowercasing as `to_lowercase` performs it on the basic
latin range (the only range these claims exercise); applied characterwise
to a string, it models `str::to_lowercase`. -/
def lowerStr (s : String) : String := ⟨s.data.map Char.toLower⟩

/-- The characters after the last `'.'` of the list, `none` when there is
no `'.'`. -/
def takeAfterLastDot : List Char → Option (List Char)
  | [] => none
  | c :: cs =>
    match takeAfterLastDot cs with
    | some e => some e
    | none => if c = '.' then some cs else none

/-- Rust `Path::extension()` on one normal file-name component: the part
after the last dot found strictly after the first character, `none` when
there is no such dot (so a leading-dot name with no other dot has no
extension). -/
def fileExtension (f : String) : Option String :=
  match f.data with
  | [] => none
  | _ :: cs => (takeAfterLastDot cs).map fun e => ⟨e⟩

/-- `Path::extension()` of a path of normal components: the extension of
its last component. -/
def pathExtension (p : FPath) : Option String :=
  p.getLast?.bind fileExtension

/-- A filesystem node as the scanner can observe it. `meta` models
`fs::metadata(path).map(|m| m.len())` at that node (`none` = the metadata
call errors); for a `symlinkFile` it is the followed target's length.
`errorEntry` is an entry whose read fails (a missing or unreadable path,
an errored `WalkDir`/`read_dir` iterator item). -/
inductive FsNode where
  | file (name : String) (withMeta : Option Nat)
  | symlinkFile (name : String) (withMeta : Option Nat)
  | symlinkDir (name : String)
  | other (name : String)
  | dir (name : String) (entries : List FsNode)
  | errorEntry (msg : String)

/-- The entry's own name (the last component of its path). -/
def FsNode.name : FsNode → String
  | .file n _ | .symlinkFile n _ | .symlinkDir n | .other n | .dir n _ => n
  | .errorEntry _ => ""

/-- `walkdir::DirEntry::file_type().is_file()`: symlinks are not followed
(`WalkDir` default), so only a regular file answers true. -/
def FsNode.isFileNoFollow : FsNode → Bool
  | .file _ _ => true
  | _ => false

/-- `std::path::Path::is_file()`: follows symlinks, so a symlink to a
regular file also answers true. -/
def FsNode.isFileFollow : FsNode → Bool
  | .file _ _ => true
  | .symlinkFile _ _ => true
  | _ => false

/-- The `fs::metadata(path).map(|m| m.len())` lookup at the node. -/
def FsNode.metaLen : FsNode → Option Nat
  | .file _ m => m
  | .symlinkFile _ m => m
  | _ => none

/-- One item yielded by a directory iterator: an entry at a path, or an
errored read (`Err(e)` of `WalkDir`/`read_dir`). -/
inductive WalkItem where
  | ok (path : FPath) (node : FsNode)
  | err (msg : String)

mutual
/-- `WalkDir::new(p)` at the node found at path `p`: the node itself first,
then its subtree depth-first; an unreadable entry yields one `Err` item. -/
def walkNode (p : FPath) : FsNode → List WalkItem
  | .errorEntry m => [.err m]
  | .dir n es => .ok p (.dir n es) :: walkList p es
  | n => [.ok p n]

/-- The items of a directory's entries, in order, children before later
siblings. -/
def walkList (parent : FPath) : List FsNode → List WalkItem
  | [] => []
  | e :: es => walkNode (parent ++ [e.name]) e ++ walkList parent es
end

/-- `std::fs::read_dir` at the root node: its entries when it is a
readable directory, otherwise the failure message. -/
def openDir : FsNode → Except String (List FsNode)
  | .dir _ es => .ok es
  | .errorEntry m => .error m
  | _ => .error "Not a directory"

/-- `ScannedFile` of dir_scanner.rs. -/
structure ScannedFile where
  path : FPath
  size : Nat
deriving Repr, DecidableEq

/-- Embedding of `process_file_entry` (dir_scanner.rs). `extensions` is the
already-normalized (lowercased) list `read_dir` built; `node.metaLen`
stands for the `fs::metadata(path).map(|m| m.len()).unwrap_or(0)` size
lookup of the matched file. -/
def process_file_entry (p : FPath) (node : FsNode) (extensions : List String) :
    Option ScannedFile :=
  if extensions.isEmpty || extensions.contains "*" then
    some ⟨p, node.metaLen.getD 0⟩
  else
    match pathExtension p with
    | some ext =>
      if extensions.contains (lowerStr ext) then some ⟨p, node.metaLen.getD 0⟩
      else none
    | none => none

/-- Embedding of `read_dir` (dir_scanner.rs). `scope` models
`app.fs_scope().is_allowed`, `rootPath` the `path` argument, `root` the
node the filesystem holds at that path (an `.errorEntry` when that path
cannot be read). Recursive mode walks with `WalkDir` skipping errored
items; non-recursive mode reads one level, failing if the root itself
cannot be opened and skipping errored entries within the level. -/
def read_dir (scope : FPath → Bool) (rootPath : FPath) (root : FsNode)
    (recursive : Bool) (extensions : List String) :
    Except String (List ScannedFile) :=
  if !scope rootPath then
    .error "Permission denied: Path not in filesystem scope"
  else
    let normalized := extensions.map lowerStr
    if recursive then
      .ok ((walkNode rootPath root).filterMap fun
        | .ok p n => if n.isFileNoFollow then process_file_entry p n normalized else none
        | .err _ => none)
    else
      match openDir root with
      | .ok entries =>
        .ok (entries.filterMap fun n =>
          if n.isFileFollow then
            process_file_entry (rootPath ++ [n.name]) n normalized
          else none)
      | .error e => .error ("Failed to read directory: " ++ e)

/-- The recognized book extensions of `find_book_files`. -/
def book_extensions : List String := ["epub", "pdf", "mobi", "azw3", "txt"]

/-- Embedding of `find_book_files` (lib.rs): walk the tree, drop errored
items (`entry.ok()`), keep every path whose lowercased final extension is
a recognized book extension. Note the code applies no file-type check:
any entry with a matching extension is kept. -/
def find_book_files (rootPath : FPath) (root : FsNode) :
    Except String (List FPath) :=
  .ok ((walkNode rootPath root).filterMap fun
    | .ok p _ =>
      match pathExtension p with
      | some ext => if book_extensions.contains (lowerStr ext) then some p else none
      | none => none
    | .err _ => none)

/-- The discovery phase as section 4.3 of the spec words it: the same
traversal, "regular files only" (the file-type test of DirectoryWalker's
recursive mode), then the same extension filter. Stated only to be
compared with `find_book_files`, which performs no file-type check. -/
def find_book_files_specRegularOnly (rootPath : FPath) (root : FsNode) :
    Except String (List FPath) :=
  .ok ((walkNode rootPath root).filterMap fun
    | .ok p n =>
      if n.isFileNoFollow then
        match pathExtension p with
        | some ext => if book_extensions.contains (lowerStr ext) then some p else none
        | none => none
      else none
    | .err _ => none)

/-- The concrete tree of the C5 counterexample: a root directory `books`
holding a directory named `novel.epub` and a regular file `a.pdf`. -/
def c5root : FsNode := .dir "books" [.dir "novel.epub" [], .file "a.pdf" (some 10)]

theorem validateLoop_log (emitErr : Nat → Option String) (fexists : FPath → Bool)
    (fmeta : FPath → Except String Nat) (total chunk : Nat)
    (h : ∀ j, emitErr j = none) :
    ∀ (rest : List FPath) (i : Nat),
      (validateLoop emitErr fexists fmeta total chunk i rest).1
        = (rest.enumFrom i).filterMap fun jp =>
            if emitCond jp.1 total chunk then some (progressFor total jp.1 jp.2) else none := by
  intro rest
  induction rest with
  | nil => intro i; simp [validateLoop]
  | cons p ps ih =>
    intro i
    by_cases hc : emitCond i total chunk
    · simp [validateLoop, h i, hc, ih]
    · simp [validateLoop, h i, hc, ih]

theorem validateLoop_ok (emitErr : Nat → Option String) (fexists : FPath → Bool)
    (fmeta : FPath → Except String Nat) (total chunk : Nat) :
    ∀ (rest : List FPath) (i : Nat),
      (∀ j, i ≤ j → j < i + rest.length → emitCond j total chunk = true → emitErr j = none) →
      (validateLoop emitErr fexists fmeta total chunk i rest).2
        = .ok (rest.map (mkValidation fexists fmeta)) := by
  intro rest
  induction rest with
  | nil => intro i _; simp [validateLoop]
  | cons p ps ih =>
    intro i h
    have hrec := ih (i + 1) (fun j h1 h2 hc => h j (by omega) (by simp at h2 ⊢; omega) hc)
    by_cases hc : emitCond i total chunk
    · have he : emitErr i = none := h i (le_refl i) (by simp) hc
      simp [validateLoop, hc, he, hrec, Except.map]
    · simp [validateLoop, hc, hrec, Except.map]

theorem validateLoop_err (emitErr : Nat → Option String) (fexists : FPath → Bool)
    (fmeta : FPath → Except String Nat) (total chunk : Nat) :
    ∀ (rest : List FPath) (i k : Nat) (e : String),
      i ≤ k → k < i + rest.length → emitCond k total chunk = true → emitErr k = some e →
      (∀ j, i ≤ j → j < k → emitCond j total chunk = true → emitErr j = none) →
      (validateLoop emitErr fexists fmeta total chunk i rest).2 = .error e := by
  intro rest
  induction rest with
  | nil => intro i k e h1 h2; simp at h2; omega
  | cons p ps ih =>
    intro i k e h1 h2 hck hek hmin
    rcases Nat.eq_or_lt_of_le h1 with heq | hlt
    · subst heq
      simp [validateLoop, hck, hek]
    · have hrec := ih (i + 1) k e hlt (by simp at h2 ⊢; omega) hck hek
        (fun j hj1 hj2 hc => hmin j (by omega) hj2 hc)
      by_cases hc : emitCond i total chunk
      · have he : emitErr i = none := hmin i (le_refl i) hlt hc
        simp [validateLoop, hc, he, hrec, Except.map]
      · simp [validateLoop, hc, hrec, Except.map]

theorem validateLoop_ok_mem (emitErr : Nat → Option String) (fexists : FPath → Bool)
    (fmeta : FPath → Except String Nat) (total chunk : Nat) :
    ∀ (rest : List FPath) (i : Nat) (rs : List ImportValidation),
      (validateLoop emitErr fexists fmeta total chunk i rest).2 = .ok rs →
      ∀ v ∈ rs, ∃ p, v = mkValidation fexists fmeta p := by
  intro rest
  induction rest with
  | nil =>
    intro i rs h
    simp [validateLoop] at h
    intro v hv
    subst h
    simp at hv
  | cons p ps ih =>
    intro i rs h
    by_cases hc : emitCond i total chunk
    · rcases he : emitErr i with _ | e
      · rcases hrec : (validateLoop emitErr fexists fmeta total chunk (i + 1) ps).2 with e' | rs'
        · simp [validateLoop, hc, he, hrec, Except.map] at h
        · simp [validateLoop, hc, he, hrec, Except.map] at h
          intro v hv
          rw [← h] at hv
          rcases List.mem_cons.mp hv with hv | hv
          · exact ⟨p, hv⟩
          · exact ih (i + 1) rs' hrec v hv
      · simp [validateLoop, hc, he] at h
    · rcases hrec : (validateLoop emitErr fexists fmeta total chunk (i + 1) ps).2 with e' | rs'
      · simp [validateLoop, hc, hrec, Except.map] at h
      · simp [validateLoop, hc, hrec, Except.map] at h
        intro v hv
        rw [← h] at hv
        rcases List.mem_cons.mp hv with hv | hv
        · exact ⟨p, hv⟩
        · exact ih (i + 1) rs' hrec v hv

/-- C1: with a positive chunk size, a non-empty path list and a healthy
emission channel, the emitted progress log is exactly one payload for each
index `i` with `i % chunk_size == 0` or `i == total_files - 1`, in index
order, carrying the last path component of the path at `i`; the condition
holds at index 0 and at the last index. -/
theorem C1_progress_emission_policy (emitErr : Nat → Option String) (fexists : FPath → Bool)
    (fmeta : FPath → Except String Nat) (paths : List FPath) (chunk_size : Nat)
    (hchunk : 1 ≤ chunk_size) (hne : paths ≠ [])
    (hemit : ∀ j, emitErr j = none) :
    (validate_book_files emitErr fexists fmeta paths chunk_size).1
      = (paths.enumFrom 0).filterMap (fun jp =>
          if emitCond jp.1 paths.length chunk_size then
            some ⟨paths.length, jp.1 + 1, fileName jp.2⟩
          else none)
    ∧ emitCond 0 paths.length chunk_size = true
    ∧ emitCond (paths.length - 1) paths.length chunk_size = true := by
  refine ⟨?_, ?_, ?_⟩
  · simpa [progressFor] using
      validateLoop_log emitErr fexists fmeta paths.length chunk_size hemit paths 0
  · simp [emitCond, Nat.zero_mod]
  · simp [emitCond]

theorem C1_progress_emission_policy_witness :
    (validate_book_files (fun _ => none) (fun _ => true) (fun _ => .ok 1)
        [["a"], ["b"], ["c"]] 2).1
      = [⟨3, 1, "a"⟩, ⟨3, 3, "c"⟩] := by
  have h := C1_progress_emission_policy (fun _ => none) (fun _ => true) (fun _ => .ok 1)
      [["a"], ["b"], ["c"]] 2 (by omega) (by simp) (fun _ => rfl)
  rw [h.1]
  rfl

/-- C2: when every emission the loop attempts succeeds, the result is
`Ok` of one `ImportValidation` per input path in input order; when the
first attempted emission that fails does so with error `e`, the whole
call returns `Err e` and no partial list. -/
theorem C2_result_or_fail_fast (emitErr : Nat → Option String) (fexists : FPath → Bool)
    (fmeta : FPath → Except String Nat) (paths : List FPath) (chunk_size : Nat)
    (hchunk : 1 ≤ chunk_size) :
    ((∀ j, j < paths.length → emitCond j paths.length chunk_size = true → emitErr j = none) →
      (validate_book_files emitErr fexists fmeta paths chunk_size).2
        = .ok (paths.map (mkValidation fexists fmeta)))
    ∧ (∀ k e, k < paths.length → emitCond k paths.length chunk_size = true →
        emitErr k = some e →
        (∀ j, j < k → emitCond j paths.length chunk_size = true → emitErr j = none) →
        (validate_book_files emitErr fexists fmeta paths chunk_size).2 = .error e) := by
  constructor
  · intro h
    exact validateLoop_ok _ _ _ _ _ paths 0 (fun j h1 h2 hc => h j (by omega) hc)
  · intro k e h1 hck hek hmin
    exact validateLoop_err _ _ _ _ _ paths 0 k e (Nat.zero_le k) (by omega) hck hek
      (fun j hj1 hj2 hc => hmin j hj2 hc)

theorem C2_result_or_fail_fast_witness :
    (validate_book_files (fun j => if j = 2 then some "boom" else none)
        (fun _ => true) (fun _ => .ok 1) [["a"], ["b"], ["c"], ["d"]] 2).2
      = .error "boom" := by
  have h := (C2_result_or_fail_fast (fun j => if j = 2 then some "boom" else none)
      (fun _ => true) (fun _ => .ok 1) [["a"], ["b"], ["c"], ["d"]] 2 (by omega)).2
  exact h 2 "boom" (by decide) (by rfl) (by rfl)
    (by intro j hj hc; interval_cases j <;> rfl)

/-- C3: the per-path outcome of `validate_book_file` follows the priority
order not-exists > empty > metadata-error > success, and under a healthy
emission channel a failing path is recorded as data while every remaining
path is still validated (the result stays one entry per path, in order). -/
theorem C3_per_path_priority (fexists : FPath → Bool) (fmeta : FPath → Except String Nat)
    (p : FPath) :
    (fexists p = false → validate_book_file fexists fmeta p = .error "File does not exist")
    ∧ (∀ n, fexists p = true → fmeta p = .ok n → n = 0 →
        validate_book_file fexists fmeta p = .error "File is empty")
    ∧ (∀ e, fexists p = true → fmeta p = .error e →
        validate_book_file fexists fmeta p = .error ("Failed to read file metadata: " ++ e))
    ∧ (∀ n, fexists p = true → fmeta p = .ok n → n ≠ 0 →
        validate_book_file fexists fmeta p = .ok ())
    ∧ (∀ emitErr paths chunk_size, (∀ j, emitErr j = none) →
        (validate_book_files emitErr fexists fmeta paths chunk_size).2
          = .ok (paths.map (mkValidation fexists fmeta))) := by
  refine ⟨?_, ?_, ?_, ?_, ?_⟩
  · intro h; simp [validate_book_file, h]
  · intro n h1 h2 h3; simp [validate_book_file, h1, h2, h3]
  · intro e h1 h2; simp [validate_book_file, h1, h2]
  · intro n h1 h2 h3; simp [validate_book_file, h1, h2, h3]
  · intro emitErr paths chunk_size hemit
    exact validateLoop_ok _ _ _ _ _ paths 0 (fun j _ _ _ => hemit j)

theorem C3_per_path_priority_witness :
    validate_book_file (fun _ => true) (fun _ => .ok 0) ["books", "b.txt"]
      = .error "File is empty" :=
  (C3_per_path_priority (fun _ => true) (fun _ => .ok 0) ["books", "b.txt"]).2.1 0 rfl rfl rfl

/-- C9: every entry of a successfully returned validation list has
`success = true` exactly when it has `error = none`. -/
theorem C9_success_iff_no_error (emitErr : Nat → Option String) (fexists : FPath → Bool)
    (fmeta : FPath → Except String Nat) (paths : List FPath) (chunk_size : Nat)
    (rs : List ImportValidation)
    (h : (validate_book_files emitErr fexists fmeta paths chunk_size).2 = .ok rs) :
    ∀ v ∈ rs, v.success = true ↔ v.error = none := by
  intro v hv
  obtain ⟨p, rfl⟩ := validateLoop_ok_mem emitErr fexists fmeta paths.length chunk_size
    paths 0 rs h v hv
  cases hvb : validate_book_file fexists fmeta p <;> simp [mkValidation, hvb]

theorem C9_success_iff_no_error_witness :
    ((ImportValidation.mk ["a"] true none).success = true
      ↔ (ImportValidation.mk ["a"] true none).error = none) := by
  exact C9_success_iff_no_error (fun _ => none) (fun _ => true) (fun _ => .ok 1)
    [["a"]] 1 [⟨["a"], true, none⟩] rfl ⟨["a"], true, none⟩ (by simp)

/-- C10: an empty path list gives a successful empty result and delivers
no progress payload at all, for any chunk size the contract allows. -/
theorem C10_empty_paths (emitErr : Nat → Option String) (fexists : FPath → Bool)
    (fmeta : FPath → Except String Nat) (chunk_size : Nat)
    (hchunk : 1 ≤ chunk_size) :
    validate_book_files emitErr fexists fmeta [] chunk_size = ([], .ok []) := rfl

theorem C10_empty_paths_witness :
    validate_book_files (fun _ => none) (fun _ => true) (fun _ => .ok 1) [] 1
      = ([], .ok []) :=
  C10_empty_paths (fun _ => none) (fun _ => true) (fun _ => .ok 1) 1 (le_refl 1)

theorem toLower_eq_star {c : Char} (h : c.toLower = '*') : c = '*' := by
  unfold Char.toLower at h
  simp only [] at h
  by_cases hc : c.toNat >= 65 ∧ c.toNat <= 90
  case pos =>
    rw [if_pos hc] at h
    have h42 : (Char.ofNat (c.toNat + 32)).toNat = '*'.toNat := congrArg Char.toNat h
    have h1 : 65 ≤ c.toNat := hc.1
    have h2 : c.toNat ≤ 90 := hc.2
    generalize hm : c.toNat = m at h42 h1 h2
    interval_cases m <;> exact absurd h42 (by decide)
  case neg =>
    rw [if_neg hc] at h
    exact h

theorem lowerStr_eq_star (s : String) : lowerStr s = "*" ↔ s = "*" := by
  constructor
  · intro h
    have hd : s.data.map Char.toLower = ['*'] := by
      have h2 := congrArg String.data h
      simpa [lowerStr] using h2
    rcases hs : s.data with _ | ⟨c, cs⟩ <;> rw [hs] at hd
    · simp at hd
    · simp at hd
      obtain ⟨hc, hcs⟩ := hd
      apply String.ext
      rw [hs, hcs, toLower_eq_star hc]
  · intro h
    subst h
    rfl

theorem star_mem_map_lowerStr (exts : List String) :
    "*" ∈ exts.map lowerStr ↔ "*" ∈ exts := by
  rw [List.mem_map]
  constructor
  · rintro ⟨s, hs, h⟩
    exact ((lowerStr_eq_star s).mp h) ▸ hs
  · intro h
    exact ⟨"*", h, rfl⟩

/-- C4: the filter of `process_file_entry`, fed the normalized extension
list exactly as `read_dir` builds it, keeps a file exactly when the
requested set is empty, contains the wildcard token, or contains an entry
equal to the file's final extension up to lowercasing; a file whose
extension matches no entry of a non-empty non-wildcard set (or that has
no extension at all) is dropped. -/
theorem C4_extension_filter (exts : List String) (p : FPath) (node : FsNode) :
    (process_file_entry p node (exts.map lowerStr)).isSome = true ↔
      (exts = [] ∨ "*" ∈ exts ∨
        ∃ s ∈ exts, ∃ e, pathExtension p = some e ∧ lowerStr s = lowerStr e) := by
  constructor
  · intro h
    by_cases hw : ((exts.map lowerStr).isEmpty || (exts.map lowerStr).contains "*") = true
    · rw [Bool.or_eq_true] at hw
      rcases hw with hw | hw
      · left; simpa using List.isEmpty_iff.mp hw
      · right; left
        exact (star_mem_map_lowerStr exts).mp (by simpa [List.contains] using hw)
    · unfold process_file_entry at h
      rw [if_neg hw] at h
      rcases he : pathExtension p with _ | e
      · simp only [he] at h
        simp at h
      · simp only [he] at h
        by_cases hcont : ((exts.map lowerStr).contains (lowerStr e)) = true
        · right; right
          have hmem : lowerStr e ∈ exts.map lowerStr := by simpa [List.contains] using hcont
          obtain ⟨s, hs, hse⟩ := List.mem_map.mp hmem
          exact ⟨s, hs, e, rfl, hse⟩
        · rw [if_neg hcont] at h
          simp at h
  · intro h
    rcases h with h | h | h
    · subst h; simp [process_file_entry]
    · have hstar : ((exts.map lowerStr).isEmpty || (exts.map lowerStr).contains "*") = true := by
        rw [Bool.or_eq_true]
        right
        simpa [List.contains] using (star_mem_map_lowerStr exts).mpr h
      unfold process_file_entry
      rw [if_pos hstar]
      rfl
    · obtain ⟨s, hs, e, he, hse⟩ := h
      unfold process_file_entry
      by_cases hw : ((exts.map lowerStr).isEmpty || (exts.map lowerStr).contains "*") = true
      · rw [if_pos hw]; rfl
      · rw [if_neg hw]
        have hmem : lowerStr e ∈ exts.map lowerStr := List.mem_map.mpr ⟨s, hs, hse⟩
        have hcont : ((exts.map lowerStr).contains (lowerStr e)) = true := by
          simpa [List.contains] using hmem
        simp only [he]
        rw [if_pos hcont]
        rfl

theorem process_file_entry_path (p : FPath) (node : FsNode) (exts : List String)
    (sf : ScannedFile) (h : process_file_entry p node exts = some sf) : sf.path = p := by
  unfold process_file_entry at h
  split at h
  · injection h with h
    subst h
    rfl
  · rcases he : pathExtension p with _ | e
    · simp only [he] at h
      cases h
    · simp only [he] at h
      split at h
      · injection h with h
        subst h
        rfl
      · cases h

/-- C6: a root path rejected by the filesystem scope makes `read_dir` fail
with the permission-denied error, whatever the tree, mode and extension
filter (so no traversal outcome can influence the result and no partial
list is produced). -/
theorem C6_permission_denied (scope : FPath → Bool) (rootPath : FPath) (root : FsNode)
    (recursive : Bool) (exts : List String) (h : scope rootPath = false) :
    read_dir scope rootPath root recursive exts
      = .error "Permission denied: Path not in filesystem scope" := by
  simp [read_dir, h]

theorem C6_permission_denied_witness :
    read_dir (fun _ => false) ["etc"] (.dir "etc" []) false []
      = .error "Permission denied: Path not in filesystem scope" :=
  C6_permission_denied (fun _ => false) ["etc"] (.dir "etc" []) false [] rfl

/-- C7: on a scope-allowed root, non-recursive `read_dir` fails with the
underlying message when the root cannot be opened, but skips errored
entries within the level; recursive `read_dir` always succeeds and skips
errored items, including an unreadable root (which yields the empty
list). -/
theorem C7_root_failure_modes (scope : FPath → Bool) (rootPath : FPath) (root : FsNode)
    (exts : List String) (m nm : String) (es : List FsNode)
    (hscope : scope rootPath = true) :
    (∀ msg, openDir root = .error msg →
      read_dir scope rootPath root false exts = .error ("Failed to read directory: " ++ msg))
    ∧ (∃ l, read_dir scope rootPath root true exts = .ok l)
    ∧ read_dir scope rootPath (.errorEntry m) true exts = .ok []
    ∧ read_dir scope rootPath (.dir nm (.errorEntry m :: es)) true exts
        = read_dir scope rootPath (.dir nm es) true exts
    ∧ read_dir scope rootPath (.dir nm (.errorEntry m :: es)) false exts
        = read_dir scope rootPath (.dir nm es) false exts := by
  refine ⟨?_, ?_, ?_, ?_, ?_⟩
  · intro msg hmsg
    simp [read_dir, hscope, hmsg]
  · refine ⟨(walkNode rootPath root).filterMap fun i =>
      match i with
      | .ok p n => if n.isFileNoFollow then process_file_entry p n (exts.map lowerStr) else none
      | .err _ => none, ?_⟩
    simp [read_dir, hscope]
  · simp [read_dir, hscope, walkNode]
  · simp [read_dir, hscope, walkNode, walkList, FsNode.name, FsNode.isFileNoFollow]
  · simp [read_dir, hscope, openDir, FsNode.isFileFollow]

theorem C7_root_failure_modes_witness :
    read_dir (fun _ => true) ["gone"] (.errorEntry "No such file or directory") false []
      = .error "Failed to read directory: No such file or directory" := by
  have h := C7_root_failure_modes (fun _ => true) ["gone"]
    (.errorEntry "No such file or directory") [] "x" "d" [] rfl
  exact h.1 "No such file or directory" rfl

/-- C8: every `ScannedFile` a successful `read_dir` call returns comes
from an entry that is a regular file or (in the follow-symlinks test of
non-recursive mode) a symlink to a regular file: a directory, a symlink
to a directory or an entry of any other type never reaches the result. -/
theorem C8_only_regular_files (scope : FPath → Bool) (rootPath : FPath) (root : FsNode)
    (recursive : Bool) (exts : List String) (l : List ScannedFile)
    (h : read_dir scope rootPath root recursive exts = .ok l)
    (sf : ScannedFile) (hsf : sf ∈ l) :
    ∃ p n, sf.path = p
      ∧ ((∃ nm mt, n = FsNode.file nm mt) ∨ (∃ nm mt, n = FsNode.symlinkFile nm mt))
      ∧ ((recursive = true ∧ WalkItem.ok p n ∈ walkNode rootPath root)
        ∨ (recursive = false ∧ ∃ es, openDir root = .ok es ∧ n ∈ es
            ∧ p = rootPath ++ [n.name])) := by
  unfold read_dir at h
  cases hscope : scope rootPath with
  | false => rw [hscope] at h; simp at h
  | true =>
    rw [hscope] at h
    simp only [Bool.not_true, Bool.false_eq_true, if_false, ite_false] at h
    cases recursive with
    | true =>
      simp only [if_true, ite_true, Except.ok.injEq] at h
      subst h
      obtain ⟨item, hitem, hfi⟩ := List.mem_filterMap.mp hsf
      rcases item with ⟨q, n⟩ | msg
      · simp only [] at hfi
        by_cases hf : n.isFileNoFollow = true
        · rw [if_pos hf] at hfi
          have hp := process_file_entry_path _ _ _ _ hfi
          cases n with
          | file nm mt =>
            exact ⟨q, .file nm mt, hp, Or.inl ⟨nm, mt, rfl⟩, Or.inl ⟨rfl, hitem⟩⟩
          | symlinkFile nm mt => simp [FsNode.isFileNoFollow] at hf
          | symlinkDir nm => simp [FsNode.isFileNoFollow] at hf
          | other nm => simp [FsNode.isFileNoFollow] at hf
          | dir nm es => simp [FsNode.isFileNoFollow] at hf
          | errorEntry m => simp [FsNode.isFileNoFollow] at hf
        · rw [if_neg hf] at hfi
          cases hfi
      · cases hfi
    | false =>
      rw [if_neg (by simp : ¬(false = true))] at h
      cases hod : openDir root with
      | error e => rw [hod] at h; simp at h
      | ok entries =>
        rw [hod] at h
        simp only [Except.ok.injEq] at h
        subst h
        obtain ⟨n, hn, hfn⟩ := List.mem_filterMap.mp hsf
        by_cases hf : n.isFileFollow = true
        · rw [if_pos hf] at hfn
          have hp := process_file_entry_path _ _ _ _ hfn
          cases n with
          | file nm mt =>
            exact ⟨_, .file nm mt, hp, Or.inl ⟨nm, mt, rfl⟩,
              Or.inr ⟨rfl, entries, rfl, hn, rfl⟩⟩
          | symlinkFile nm mt =>
            exact ⟨_, .symlinkFile nm mt, hp, Or.inr ⟨nm, mt, rfl⟩,
              Or.inr ⟨rfl, entries, rfl, hn, rfl⟩⟩
          | symlinkDir nm => simp [FsNode.isFileFollow] at hf
          | other nm => simp [FsNode.isFileFollow] at hf
          | dir nm es => simp [FsNode.isFileFollow] at hf
          | errorEntry m => simp [FsNode.isFileFollow] at hf
        · rw [if_neg hf] at hfn
          cases hfn

theorem C8_only_regular_files_witness :
    ∃ p n, (ScannedFile.mk ["d", "a"] 5).path = p
      ∧ ((∃ nm mt, n = FsNode.file nm mt) ∨ (∃ nm mt, n = FsNode.symlinkFile nm mt))
      ∧ ((false = true ∧ WalkItem.ok p n ∈ walkNode ["d"] (.dir "d" [.file "a" (some 5)]))
        ∨ (false = false ∧ ∃ es, openDir (.dir "d" [.file "a" (some 5)]) = .ok es
            ∧ n ∈ es ∧ p = ["d"] ++ [n.name])) :=
  C8_only_regular_files (fun _ => true) ["d"] (.dir "d" [.file "a" (some 5)]) false []
    [⟨["d", "a"], 5⟩] rfl ⟨["d", "a"], 5⟩ (by simp)

/-- C5, counterexample: on a tree whose root `books` holds a *directory*
named `novel.epub` and a regular file `a.pdf`, `find_book_files` returns
the directory's path too — the claim's "regular files only" restriction
(spelled out by `find_book_files_specRegularOnly`) does not hold of the
code, which filters by extension alone. -/
theorem C5_find_book_files_counterexample :
    find_book_files ["books"] c5root = .ok [["books", "novel.epub"], ["books", "a.pdf"]]
    ∧ find_book_files_specRegularOnly ["books"] c5root = .ok [["books", "a.pdf"]] :=
  ⟨rfl, rfl⟩

/-- C5, amended: `find_book_files` always succeeds, and its list holds
exactly the walked paths (errored items skipped) whose final extension,
lowercased, is a recognized book extension — with no restriction to
regular files, so directories with a matching extension qualify too. -/
theorem C5_find_book_files_extension_only (rootPath : FPath) (root : FsNode) :
    ∃ l, find_book_files rootPath root = .ok l
      ∧ ∀ p, p ∈ l ↔ ∃ n, WalkItem.ok p n ∈ walkNode rootPath root
          ∧ ∃ e, pathExtension p = some e
          ∧ book_extensions.contains (lowerStr e) = true := by
  refine ⟨_, rfl, fun p => ?_⟩
  constructor
  · intro hp
    obtain ⟨item, hitem, hfi⟩ := List.mem_filterMap.mp hp
    rcases item with ⟨q, n⟩ | msg
    · simp only [] at hfi
      rcases he : pathExtension q with _ | e
      · simp only [he] at hfi
        cases hfi
      · simp only [he] at hfi
        by_cases hb : book_extensions.contains (lowerStr e) = true
        · rw [if_pos hb] at hfi
          injection hfi with hfi
          subst hfi
          exact ⟨n, hitem, e, he, hb⟩
        · rw [if_neg hb] at hfi
          cases hfi
    · cases hfi
  · rintro ⟨n, hn, e, he, hb⟩
    apply List.mem_filterMap.mpr
    refine ⟨.ok p n, hn, ?_⟩
    simp only [he]
    rw [if_pos hb]

end Readest

